import Mathlib

/-!
Shallow embedding of the maze game core (`maze_game.py`) of the
`llm-pygame-maze` repository, together with proofs checking the
natural-language specification against it.

Embedding conventions:
* Python `int` coordinates are `Int`; cells are pairs `(x, y)`.
* The mutable 2D boolean arrays `self.maze` and `self.visited` are embedded
  as functions `Cell → Bool` with pointwise update (`updf`); the Python code
  only ever reads or writes them at in-bounds indices, so the array/function
  distinction is immaterial.
* `random.choice(xs)` is embedded by drawing an index from an arbitrary
  injected stream `rand : Nat → Nat` and reducing it modulo `xs.length`;
  every concrete run of the Python code corresponds to some such stream,
  and all theorems quantify over the stream.
* The `while stack:` loop of `MazeGenerator.generate` is embedded with an
  explicit fuel argument so that the definition is structurally recursive
  (hence kernel-evaluable).  `generate` passes fuel `2*width*height + 1`,
  which is proved to exceed the number of loop iterations (each iteration
  strictly decreases `2 * #unvisited-valid-cells + stack length`).
* Rendering, fonts, timing/rate-limiting and console printing are pure I/O
  with no effect on the game state and are not embedded; the LLM call
  (`llm_client.get_next_move`) is embedded as an `Option Cell` argument,
  `none` standing for a call that raised (the surrounding `try/except`
  leaves the state unchanged in that case, since no mutation precedes the
  call).
-/

/-- A grid cell, Python tuple `(x, y)`. -/
abbrev Cell : Type := Int × Int

/-- Pointwise update of a function, embedding a single 2D-array write
`a[p] = v`. -/
def updf (f : Cell → Bool) (p : Cell) (v : Bool) : Cell → Bool :=
  fun q => if q = p then v else f q

@[simp] theorem updf_same (f : Cell → Bool) (p : Cell) (v : Bool) :
    updf f p v p = v := by simp [updf]

theorem updf_other (f : Cell → Bool) {p q : Cell} (v : Bool) (h : q ≠ p) :
    updf f p v q = f q := by simp [updf, h]

/-- Embedding of the `MazeGenerator` object state: dimensions, the wall
matrix `maze` (`true` = wall) and the DFS `visited` matrix. -/
structure MazeGenerator where
  width : Int
  height : Int
  maze : Cell → Bool
  visited : Cell → Bool

namespace MazeGenerator

/-- `MazeGenerator.__init__`: everything is a wall, nothing is visited. -/
def init (width height : Int) : MazeGenerator :=
  { width := width, height := height
    maze := fun _ => true
    visited := fun _ => false }

/-- `MazeGenerator.is_valid`. -/
def is_valid (g : MazeGenerator) (x y : Int) : Bool :=
  decide (0 ≤ x) && decide (x < g.width) && decide (0 ≤ y) && decide (y < g.height)

/-- The fixed neighbour-offset list `[(0, -2), (0, 2), (-2, 0), (2, 0)]`. -/
def strideDirs : List Cell := [(0, -2), (0, 2), (-2, 0), (2, 0)]

/-- `MazeGenerator.get_neighbors`: unvisited valid cells two steps away,
in the fixed offset order. -/
def get_neighbors (g : MazeGenerator) (x y : Int) : List Cell :=
  strideDirs.filterMap (fun d =>
    let nx := x + d.1
    let ny := y + d.2
    if g.is_valid nx ny && !(g.visited (nx, ny)) then some (nx, ny) else none)

/-- `MazeGenerator.remove_wall`: clear the cell midway between `(x1, y1)`
and `(x2, y2)`. -/
def remove_wall (g : MazeGenerator) (x1 y1 x2 y2 : Int) : MazeGenerator :=
  { g with maze := updf g.maze ((x1 + x2) / 2, (y1 + y2) / 2) false }

/-- One complete run of the `while stack:` loop of
`MazeGenerator.generate`, with fuel making the recursion structural.
The stack keeps its top at the head; `t` indexes the random stream. -/
def carve (rand : Nat → Nat) : Nat → MazeGenerator → List Cell → Nat → MazeGenerator
  | 0, g, _, _ => g
  | _ + 1, g, [], _ => g
  | fuel + 1, g, (x, y) :: rest, t =>
    let neighbors := g.get_neighbors x y
    match neighbors with
    | [] => carve rand fuel g rest (t + 1)
    | n0 :: _ =>
      let n := neighbors.getD (rand t % neighbors.length) n0
      let g' := { (g.remove_wall x y n.1 n.2) with
                  visited := updf g.visited n true }
      let g'' := { g' with maze := updf g'.maze n false }
      carve rand fuel g'' (n :: (x, y) :: rest) (t + 1)

/-- `MazeGenerator.generate`: adjust the start to odd coordinates, seed the
stack, run the carving loop, then force `(1,1)` and
`(width-2, height-2)` to be passages. -/
def generate (g : MazeGenerator) (rand : Nat → Nat) (start_x start_y : Int) :
    MazeGenerator :=
  let sx := if start_x % 2 = 0 then start_x + 1 else start_x
  let sy := if start_y % 2 = 0 then start_y + 1 else start_y
  let g0 : MazeGenerator :=
    { g with visited := updf g.visited (sx, sy) true
             maze := updf g.maze (sx, sy) false }
  let g1 := carve rand (2 * (g.width.toNat * g.height.toNat) + 1) g0 [(sx, sy)] 0
  { g1 with maze := updf (updf g1.maze (1, 1) false)
                         (g.width - 2, g.height - 2) false }

/-- `MazeGenerator.is_wall`: out-of-bounds coordinates are walls, otherwise
the stored flag. -/
def is_wall (g : MazeGenerator) (x y : Int) : Bool :=
  if g.is_valid x y then g.maze (x, y) else true

end MazeGenerator

/-- Python slice `l[-k:]` (for the uses in `maze_game.py`; note `l[-0:]`
is the whole list). -/
def lastSlice (l : List Cell) (k : Nat) : List Cell :=
  if k = 0 then l else l.drop (l.length - k)

/-- Maximum of `position_counts.values()` in `detect_loop` (`0` when the
window is empty, matching the `if position_counts else 0` guard). -/
def maxOccurrences (l : List Cell) : Nat :=
  (l.map (fun p => l.count p)).foldr max 0

/-- Maximum of a list of integers in the sense of Python `max`
(only applied to nonempty lists; `0` is a dummy for `[]`). -/
def listMaxInt : List Int → Int
  | [] => 0
  | a :: rest => rest.foldl max a

/-- Minimum of a list of integers in the sense of Python `min`
(only applied to nonempty lists; `0` is a dummy for `[]`). -/
def listMinInt : List Int → Int
  | [] => 0
  | a :: rest => rest.foldl min a

/-- The x-extent `max(x_coords) - min(x_coords)` of a window. -/
def xRange (l : List Cell) : Int :=
  listMaxInt (l.map Prod.fst) - listMinInt (l.map Prod.fst)

/-- The y-extent `max(y_coords) - min(y_coords)` of a window. -/
def yRange (l : List Cell) : Int :=
  listMaxInt (l.map Prod.snd) - listMinInt (l.map Prod.snd)

/-- Repetition-pattern block of `MazeGame.detect_loop` ("检测模式1"):
an over-represented cell in the window plus a literal A-B-A-B or
A-B-C-A-B-C tail. -/
def repetitionSignal (recent : List Cell) : Bool :=
  if 3 ≤ maxOccurrences recent ∧ 6 ≤ recent.length then
    if 4 ≤ recent.length then
      let abab : Bool :=
        match lastSlice recent 4 with
        | [a, b, c, d] => decide (a = c) && decide (b = d) && decide (a ≠ b)
        | _ => false
      if abab then true
      else if 6 ≤ recent.length then
        match lastSlice recent 6 with
        | [a, b, c, d, e, f] =>
            decide (a = d) && decide (b = e) && decide (c = f) &&
              (decide (a ≠ b) && decide (a ≠ c) && decide (b ≠ c))
        | _ => false
      else false
    else false
  else false

/-- Confinement block of `MazeGame.detect_loop` ("检测模式2"): both
coordinate spans of the window are at most 2. -/
def confinementSignal (recent : List Cell) : Bool :=
  if 6 ≤ recent.length then
    decide (xRange recent ≤ 2) && decide (yRange recent ≤ 2) &&
      decide (6 ≤ recent.length)
  else false

/-- `MazeGame.detect_loop`, as a function of the move history and the
`lookback_steps` parameter (always called with the default `8`).  The two
`return True` blocks of the Python body are `repetitionSignal` and
`confinementSignal` on the trailing window. -/
def detect_loop (move_history : List Cell) (lookback_steps : Nat) : Bool :=
  if move_history.length < lookback_steps then false
  else
    let recent := lastSlice move_history lookback_steps
    if repetitionSignal recent then true
    else confinementSignal recent

/-- `Player.move`: returns the Python return value together with the
updated position (unchanged when the target is a wall). -/
def playerMove (g : MazeGenerator) (p : Cell) (dx dy : Int) : Bool × Cell :=
  let new_x := p.1 + dx
  let new_y := p.2 + dy
  if !(g.is_wall new_x new_y) then (true, (new_x, new_y)) else (false, p)

/-- The session state held by `MazeGame` (the fields the core logic
reads or writes; rendering-only fields are omitted).  The `Player`
object is embedded as its position; its `start_x/start_y` fields are
always `(1, 1)` (the only constructor call is `Player(1, 1)`). -/
structure GameState where
  maze_width : Int
  maze_height : Int
  maze_generator : MazeGenerator
  player : Cell
  end_x : Int
  end_y : Int
  won : Bool
  auto_mode : Bool
  move_history : List Cell
  step_count : Nat

namespace GameState

/-- `MazeGame.get_available_directions` (strings, in the fixed
UP, DOWN, LEFT, RIGHT probe order). -/
def get_available_directions (s : GameState) : List String :=
  let x := s.player.1
  let y := s.player.2
  (if !(s.maze_generator.is_wall x (y - 1)) then ["UP"] else []) ++
  (if !(s.maze_generator.is_wall x (y + 1)) then ["DOWN"] else []) ++
  (if !(s.maze_generator.is_wall (x - 1) y) then ["LEFT"] else []) ++
  (if !(s.maze_generator.is_wall (x + 1) y) then ["RIGHT"] else [])

/-- `MazeGame.move_to_position`: returns the Python return value and the
updated session state. -/
def move_to_position (s : GameState) (target_x target_y : Int) :
    Bool × GameState :=
  if s.maze_generator.is_wall target_x target_y then (false, s)
  else
    let dx := target_x - s.player.1
    let dy := target_y - s.player.2
    if dx.natAbs + dy.natAbs ≠ 1 then
      if !(s.maze_generator.is_wall target_x target_y) then
        (true, { s with player := (target_x, target_y)
                        move_history := s.move_history ++ [(target_x, target_y)]
                        step_count := s.step_count + 1 })
      else (false, s)
    else
      let m := playerMove s.maze_generator s.player dx dy
      if m.1 then
        (true, { s with player := m.2
                        move_history := s.move_history ++ [m.2]
                        step_count := s.step_count + 1 })
      else (false, s)

/-- `MazeGame.get_unvisited_adjacent_positions` (membership in the Python
`set(self.move_history)` is list membership). -/
def get_unvisited_adjacent_positions (s : GameState) : List Cell :=
  let x := s.player.1
  let y := s.player.2
  ([(0, -1), (0, 1), (-1, 0), (1, 0)] : List Cell).filterMap (fun d =>
    let adj : Cell := (x + d.1, y + d.2)
    if !(s.maze_generator.is_wall adj.1 adj.2) && !(s.move_history.contains adj)
    then some adj else none)

/-- The Manhattan-distance key `abs(p[0]-tx) + abs(p[1]-ty)` used with
Python `min(..., key=...)`. -/
def manhattanKey (tx ty : Int) (p : Cell) : Nat :=
  (p.1 - tx).natAbs + (p.2 - ty).natAbs

/-- Python `min(l, key=key)`: keeps the first element attaining the
minimal key (replacement only on strict decrease).  Only applied to
nonempty lists; `(0, 0)` is a dummy for `[]` (Python would raise). -/
def pyMinBy (key : Cell → Nat) : List Cell → Cell
  | [] => (0, 0)
  | a :: rest => rest.foldl (fun best p => if key p < key best then p else best) a

end GameState

namespace GameState

/-- The goal test run after each applied move
(`if self.player.x == self.end_x and self.player.y == self.end_y:
self.won = True`). -/
def checkWin (s : GameState) : GameState :=
  if s.player.1 = s.end_x ∧ s.player.2 = s.end_y then { s with won := true }
  else s

@[simp] theorem checkWin_player (s : GameState) :
    (checkWin s).player = s.player := by
  unfold checkWin; split <;> rfl

@[simp] theorem checkWin_move_history (s : GameState) :
    (checkWin s).move_history = s.move_history := by
  unfold checkWin; split <;> rfl

@[simp] theorem checkWin_step_count (s : GameState) :
    (checkWin s).step_count = s.step_count := by
  unfold checkWin; split <;> rfl

@[simp] theorem checkWin_maze_generator (s : GameState) :
    (checkWin s).maze_generator = s.maze_generator := by
  unfold checkWin; split <;> rfl

@[simp] theorem checkWin_maze_width (s : GameState) :
    (checkWin s).maze_width = s.maze_width := by
  unfold checkWin; split <;> rfl

@[simp] theorem checkWin_maze_height (s : GameState) :
    (checkWin s).maze_height = s.maze_height := by
  unfold checkWin; split <;> rfl

/-- The coordinate delta of a direction string ("no branch matches" leaves
the player untouched, like the Python `if/elif` chain). -/
def directionDelta (d : String) : Cell :=
  if d = "UP" then (0, -1)
  else if d = "DOWN" then (0, 1)
  else if d = "LEFT" then (-1, 0)
  else if d = "RIGHT" then (1, 0)
  else (0, 0)

/-- The decision-and-apply core of `MazeGame.handle_auto_move`.
`llm_next` is the result of `llm_client.get_next_move` (`none` when the
call raised — the `except` handler then leaves the state unchanged, the
only prior statements being reads and prints).  `randPick` drives
`random.choice(available_directions)` in the boxed-in fallback.  The
rate-limiting clock and all printing are omitted as pure I/O. -/
def handle_auto_move (s : GameState) (llm_next : Option Cell) (randPick : Nat) :
    GameState :=
  if !s.auto_mode || s.won then s
  else
    let target_pos : Cell := (s.end_x, s.end_y)
    let available_directions := s.get_available_directions
    let unvisited_adjacent := s.get_unvisited_adjacent_positions
    let is_looping := detect_loop s.move_history 8
    let next? : Option Cell :=
      if is_looping && !unvisited_adjacent.isEmpty then
        some (pyMinBy (manhattanKey target_pos.1 target_pos.2) unvisited_adjacent)
      else llm_next
    match next? with
    | none => s
    | some next_pos =>
      let r := s.move_to_position next_pos.1 next_pos.2
      let s2 :=
        if !r.1 then
          if !unvisited_adjacent.isEmpty then
            let best_pos :=
              pyMinBy (manhattanKey target_pos.1 target_pos.2) unvisited_adjacent
            (r.2.move_to_position best_pos.1 best_pos.2).2
          else if !available_directions.isEmpty then
            let direction :=
              available_directions.getD
                (randPick % available_directions.length) ""
            let d := directionDelta direction
            let p' := (playerMove r.2.maze_generator r.2.player d.1 d.2).2
            { r.2 with
              player := p'
              move_history :=
                if r.2.move_history.contains p' then r.2.move_history
                else r.2.move_history ++ [p']
              step_count := r.2.step_count + 1 }
          else r.2
        else r.2
      checkWin s2

/-- An arrow/WASD key in manual mode. -/
inductive ArrowKey | UP | DOWN | LEFT | RIGHT

/-- The delta the `handle_events` keyboard branch feeds to `Player.move`. -/
def ArrowKey.delta : ArrowKey → Cell
  | .UP => (0, -1)
  | .DOWN => (0, 1)
  | .LEFT => (-1, 0)
  | .RIGHT => (1, 0)

/-- The manual-move branch of `MazeGame.handle_events` (guarded by
`not self.won and not self.auto_mode`): move the player, on success append
to the history and bump the step counter, then check the goal. -/
def manual_move (s : GameState) (k : ArrowKey) : GameState :=
  if s.won || s.auto_mode then s
  else
    let m := playerMove s.maze_generator s.player k.delta.1 k.delta.2
    let s1 :=
      if m.1 then
        { s with player := m.2
                 move_history := s.move_history ++ [m.2]
                 step_count := s.step_count + 1 }
      else { s with player := m.2 }
    checkWin s1

/-- The `K_t` branch of `handle_events` (an LLM client is attached in the
sessions we model). -/
def toggle_mode (s : GameState) : GameState :=
  { s with auto_mode := !s.auto_mode }

/-- The `K_r` branch of `handle_events`: regenerate the maze, reset the
player to its `Player(1, 1)` start, clear the win flag, reseed the history
and zero the step counter. -/
def reset_game (s : GameState) (rand : Nat → Nat) : GameState :=
  { s with
    maze_generator :=
      (MazeGenerator.init s.maze_width s.maze_height).generate rand 1 1
    player := (1, 1)
    won := false
    move_history := [(1, 1)]
    step_count := 0 }

end GameState

/-- The session-state part of `MazeGame.__init__`: generate a maze, put the
player at `(1, 1)`, aim at `(width-2, height-2)`, seed the history. -/
def initGame (w h : Int) (rand : Nat → Nat) (auto : Bool) : GameState :=
  { maze_width := w
    maze_height := h
    maze_generator := (MazeGenerator.init w h).generate rand 1 1
    player := (1, 1)
    end_x := w - 2
    end_y := h - 2
    won := false
    auto_mode := auto
    move_history := [(1, 1)]
    step_count := 0 }

/-- All session states reachable in a run of the game: the constructed
state, then any interleaving of auto steps (with arbitrary oracle answers
and random draws), manual key presses, mode toggles and `R`-key resets. -/
inductive Reachable : GameState → Prop where
  | init : ∀ (w h : Int) (rand : Nat → Nat) (auto : Bool),
      3 ≤ w → 3 ≤ h → Reachable (initGame w h rand auto)
  | auto_step : ∀ (s : GameState) (llm_next : Option Cell) (randPick : Nat),
      Reachable s → Reachable (s.handle_auto_move llm_next randPick)
  | manual : ∀ (s : GameState) (k : GameState.ArrowKey),
      Reachable s → Reachable (s.manual_move k)
  | toggle : ∀ (s : GameState), Reachable s → Reachable s.toggle_mode
  | reset : ∀ (s : GameState) (rand : Nat → Nat),
      Reachable s → Reachable (s.reset_game rand)

/-! ### Helper lemmas about the loop detector -/

theorem lastSlice_length_of_le (l : List Cell) (k : Nat) (hk : k ≠ 0)
    (h : k ≤ l.length) : (lastSlice l k).length = k := by
  simp only [lastSlice, if_neg hk, List.length_drop]
  omega

/-- Histories shorter than the lookback window never signal a loop. -/
theorem detect_loop_short (h : List Cell) (k : Nat) (hlt : h.length < k) :
    detect_loop h k = false := by
  simp only [detect_loop, if_pos hlt]

/-- Whenever the trailing 8-entry window exists and is confined to spans
of at most 2 in both coordinates, `detect_loop` signals a loop (the
confinement branch fires regardless of the repetition branch). -/
theorem detect_loop_confined (h : List Cell) (h8 : 8 ≤ h.length)
    (hx : xRange (lastSlice h 8) ≤ 2) (hy : yRange (lastSlice h 8) ≤ 2) :
    detect_loop h 8 = true := by
  have hlen : ¬ (h.length < 8) := by omega
  have hrl : (lastSlice h 8).length = 8 :=
    lastSlice_length_of_le h 8 (by omega) h8
  simp only [detect_loop, if_neg hlen]
  cases hrep : repetitionSignal (lastSlice h 8) with
  | true => simp
  | false =>
      simp only [Bool.false_eq_true, if_false, confinementSignal,
        if_pos (show 6 ≤ (lastSlice h 8).length by omega)]
      simp [hx, hy]
      omega

/-! ### C2: loop detector on the two scenario histories -/

/-- C2 counterexample: on the six-entry history
`[(0,0),(1,0),(0,0),(1,0),(0,0),(1,0)]` (A-B-A-B-A-B) the detector
returns `false`, not `true` as claimed: the history is shorter than the
8-entry lookback window, so `detect_loop` bails out immediately. -/
theorem C2_counterexample :
    detect_loop [(0, 0), (1, 0), (0, 0), (1, 0), (0, 0), (1, 0)] 8 = false := by
  decide

/-- C2 (amended): the A-B-A-B alternation is only reported once it fills
the 8-entry lookback window — on
`[(0,0),(1,0),(0,0),(1,0),(0,0),(1,0),(0,0),(1,0)]` the detector returns
`true` — while the six-entry A-B-A-B-A-B history returns `false` (history
shorter than the window), and a monotonically increasing path of 8
distinct cells returns `false`. -/
theorem C2_amended_theorem :
    detect_loop
        [(0, 0), (1, 0), (0, 0), (1, 0), (0, 0), (1, 0), (0, 0), (1, 0)] 8
      = true ∧
    detect_loop [(0, 0), (1, 0), (0, 0), (1, 0), (0, 0), (1, 0)] 8 = false ∧
    detect_loop
        [(0, 0), (1, 0), (1, 1), (2, 1), (2, 2), (3, 2), (3, 3), (4, 3)] 8
      = false := by
  decide

/-! ### C6: the confinement signal -/

/-- C6 counterexample: the six-entry history
`[(5,5),(5,6),(6,5),(6,6),(5,5),(6,6)]` stays within a 3×3 area for 6
moves (both spans are 1), yet the detector returns `false`: any history
shorter than the 8-entry lookback is rejected before the confinement
check. -/
theorem C6_counterexample :
    detect_loop [(5, 5), (5, 6), (6, 5), (6, 6), (5, 5), (6, 6)] 8 = false := by
  decide

/-- C6 (amended): the confinement signal is true for every move history
with at least 8 entries whose trailing 8-entry window has x-span ≤ 2 and
y-span ≤ 2 (for shorter histories the detector returns false even when
confined). -/
theorem C6_amended_theorem (h : List Cell) (h8 : 8 ≤ h.length)
    (hx : xRange (lastSlice h 8) ≤ 2) (hy : yRange (lastSlice h 8) ≤ 2) :
    detect_loop h 8 = true :=
  detect_loop_confined h h8 hx hy

/-- Witness for C6 (amended) at a concrete confined 8-entry history. -/
theorem C6_amended_witness :
    detect_loop
        [(4, 4), (4, 5), (5, 5), (5, 4), (4, 4), (4, 5), (5, 5), (6, 4)] 8
      = true :=
  C6_amended_theorem
    [(4, 4), (4, 5), (5, 5), (5, 4), (4, 4), (4, 5), (5, 5), (6, 4)]
    (by decide) (by decide) (by decide)

/-! ### C8: totality and out-of-bounds behaviour of `is_wall` -/

theorem is_valid_iff (g : MazeGenerator) (x y : Int) :
    g.is_valid x y = true ↔
      (0 ≤ x ∧ x < g.width ∧ 0 ≤ y ∧ y < g.height) := by
  simp [MazeGenerator.is_valid, and_assoc]

/-- C8: `is_wall` is a total function on `Int × Int` (it is a Lean
function, hence total and side-effect free): it returns `true` on every
coordinate outside `[0,width) × [0,height)`, and on every in-bounds
coordinate it returns the stored wall flag. -/
theorem C8_theorem (g : MazeGenerator) (x y : Int) :
    (¬ (0 ≤ x ∧ x < g.width ∧ 0 ≤ y ∧ y < g.height) →
        g.is_wall x y = true) ∧
    ((0 ≤ x ∧ x < g.width ∧ 0 ≤ y ∧ y < g.height) →
        g.is_wall x y = g.maze (x, y)) := by
  constructor <;> intro h
  · have hv : g.is_valid x y = false := by
      cases hb : g.is_valid x y
      · rfl
      · exact absurd ((is_valid_iff g x y).mp hb) h
    simp [MazeGenerator.is_wall, hv]
  · have hv : g.is_valid x y = true := (is_valid_iff g x y).mpr h
    simp [MazeGenerator.is_wall, hv]

/-- Witness for C8 on a concrete grid: (-1, 0) is out of bounds and a
wall; (1, 1) is in bounds and reports the stored flag. -/
theorem C8_witness :
    (MazeGenerator.init 5 5).is_wall (-1) 0 = true ∧
    (MazeGenerator.init 5 5).is_wall 1 1 = (MazeGenerator.init 5 5).maze (1, 1) :=
  ⟨(C8_theorem (MazeGenerator.init 5 5) (-1) 0).1 (by decide),
   (C8_theorem (MazeGenerator.init 5 5) 1 1).2 (by decide)⟩

/-! ### C9: the forced start and goal passages -/

/-- `carve` never changes the grid dimensions. -/
theorem carve_dims (rand : Nat → Nat) :
    ∀ (fuel : Nat) (g : MazeGenerator) (stack : List Cell) (t : Nat),
      (MazeGenerator.carve rand fuel g stack t).width = g.width ∧
      (MazeGenerator.carve rand fuel g stack t).height = g.height := by
  intro fuel
  induction fuel with
  | zero => intro g stack t; exact ⟨rfl, rfl⟩
  | succ fuel ih =>
      intro g stack t
      match stack with
      | [] => exact ⟨rfl, rfl⟩
      | (x, y) :: rest =>
          rw [MazeGenerator.carve]
          cases hn : g.get_neighbors x y with
          | nil => exact ih g rest (t + 1)
          | cons n0 ns => exact ih _ _ _

/-- `generate` keeps the grid dimensions of its input. -/
theorem generate_dims (g : MazeGenerator) (rand : Nat → Nat)
    (sx sy : Int) :
    (g.generate rand sx sy).width = g.width ∧
    (g.generate rand sx sy).height = g.height := by
  unfold MazeGenerator.generate
  exact carve_dims rand _ _ _ _

/-- The final two writes of `generate` make `(1,1)` and
`(width-2, height-2)` passages in the wall matrix. -/
theorem generate_maze_start_goal (g : MazeGenerator) (rand : Nat → Nat)
    (sx sy : Int) :
    (g.generate rand sx sy).maze (1, 1) = false ∧
    (g.generate rand sx sy).maze (g.width - 2, g.height - 2) = false := by
  unfold MazeGenerator.generate
  constructor
  · show updf (updf _ (1, 1) false) (g.width - 2, g.height - 2) false (1, 1) = false
    unfold updf
    split <;> simp
  · show updf (updf _ (1, 1) false) (g.width - 2, g.height - 2) false
        (g.width - 2, g.height - 2) = false
    simp [updf]

/-- C9: after generation, for any odd width and height ≥ 3 and any random
stream, the start cell `(1,1)` and the goal cell `(width-2, height-2)`
are passages. -/
theorem C9_theorem (W H : Int) (rand : Nat → Nat)
    (hWodd : W % 2 = 1) (hHodd : H % 2 = 1) (hW : 3 ≤ W) (hH : 3 ≤ H) :
    ((MazeGenerator.init W H).generate rand 1 1).is_wall 1 1 = false ∧
    ((MazeGenerator.init W H).generate rand 1 1).is_wall (W - 2) (H - 2)
      = false := by
  set g := (MazeGenerator.init W H).generate rand 1 1 with hg
  have hdims := generate_dims (MazeGenerator.init W H) rand 1 1
  have hW' : g.width = W := hdims.1
  have hH' : g.height = H := hdims.2
  have hmaze := generate_maze_start_goal (MazeGenerator.init W H) rand 1 1
  constructor
  · have hv : g.is_valid 1 1 = true := by
      rw [is_valid_iff, hW', hH']
      omega
    simpa [MazeGenerator.is_wall, hv] using hmaze.1
  · have hv : g.is_valid (W - 2) (H - 2) = true := by
      rw [is_valid_iff, hW', hH']
      omega
    have := hmaze.2
    simpa [MazeGenerator.is_wall, hv] using this

/-- Witness for C9: on a concretely generated 5×5 maze, `(1,1)` and
`(3,3)` are passages. -/
theorem C9_witness :
    ((MazeGenerator.init 5 5).generate (fun _ => 0) 1 1).is_wall 1 1 = false ∧
    ((MazeGenerator.init 5 5).generate (fun _ => 0) 1 1).is_wall 3 3 = false :=
  C9_theorem 5 5 (fun _ => 0) (by decide) (by decide) (by decide) (by decide)

/-! ### Helper lemmas about `pyMinBy` and unvisited-adjacent cells -/

/-- `m` is the first element of `l` attaining the minimal key: every
earlier element has a strictly larger key, and no element has a smaller
one. -/
def FirstMin (key : Cell → Nat) (l : List Cell) (m : Cell) : Prop :=
  (∃ pre post, l = pre ++ m :: post ∧ ∀ x ∈ pre, key m < key x) ∧
  ∀ x ∈ l, key m ≤ key x

theorem pyFold_spec (key : Cell → Nat) :
    ∀ (rest : List Cell) (a : Cell),
      key (rest.foldl (fun best p => if key p < key best then p else best) a)
          ≤ key a ∧
      (∀ x ∈ rest,
        key (rest.foldl (fun best p => if key p < key best then p else best) a)
          ≤ key x) ∧
      (rest.foldl (fun best p => if key p < key best then p else best) a = a ∨
        ∃ pre post,
          rest = pre ++
            (rest.foldl (fun best p => if key p < key best then p else best) a)
              :: post ∧
          key (rest.foldl (fun best p => if key p < key best then p else best) a)
              < key a ∧
          ∀ x ∈ pre,
            key (rest.foldl (fun best p => if key p < key best then p else best) a)
              < key x) := by
  intro rest
  induction rest with
  | nil => exact fun a => ⟨le_refl _, by simp, Or.inl rfl⟩
  | cons p rest ih =>
      intro a
      simp only [List.foldl_cons]
      by_cases hk : key p < key a
      · rw [if_pos hk]
        obtain ⟨h1, h2, h3⟩ := ih p
        refine ⟨h1.trans hk.le, ?_, ?_⟩
        · intro x hx
          rcases List.mem_cons.mp hx with rfl | hx
          · exact h1
          · exact h2 x hx
        · rcases h3 with heq | ⟨pre, post, hsplit, hlt, hpre⟩
          · refine Or.inr ⟨[], rest, ?_, ?_, by simp⟩
            · simp [heq]
            · rw [heq]; exact hk
          · refine Or.inr ⟨p :: pre, post, by rw [List.cons_append, ← hsplit],
              hlt.trans hk, ?_⟩
            intro x hx
            rcases List.mem_cons.mp hx with rfl | hx
            · exact hlt
            · exact hpre x hx
      · rw [if_neg hk]
        obtain ⟨h1, h2, h3⟩ := ih a
        have hap : key a ≤ key p := le_of_not_lt hk
        refine ⟨h1, ?_, ?_⟩
        · intro x hx
          rcases List.mem_cons.mp hx with rfl | hx
          · exact h1.trans hap
          · exact h2 x hx
        · rcases h3 with heq | ⟨pre, post, hsplit, hlt, hpre⟩
          · exact Or.inl heq
          · refine Or.inr ⟨p :: pre, post, by rw [List.cons_append, ← hsplit],
              hlt, ?_⟩
            intro x hx
            rcases List.mem_cons.mp hx with rfl | hx
            · exact hlt.trans_le hap
            · exact hpre x hx

/-- Python `min(l, key=key)` returns the first element of `l` with the
minimal key (ties broken by position, earliest wins). -/
theorem pyMinBy_firstMin (key : Cell → Nat) (l : List Cell) (hne : l ≠ []) :
    FirstMin key l (GameState.pyMinBy key l) := by
  match l with
  | [] => exact absurd rfl hne
  | a :: rest =>
      obtain ⟨h1, h2, h3⟩ := pyFold_spec key rest a
      unfold GameState.pyMinBy
      constructor
      · rcases h3 with heq | ⟨pre, post, hsplit, hlt, hpre⟩
        · exact ⟨[], rest, by simp [heq], by simp⟩
        · refine ⟨a :: pre, post, by rw [List.cons_append, ← hsplit], ?_⟩
          intro x hx
          rcases List.mem_cons.mp hx with rfl | hx
          · exact hlt
          · exact hpre x hx
      · intro x hx
        rcases List.mem_cons.mp hx with rfl | hx
        · exact h1
        · exact h2 x hx

theorem pyMinBy_mem (key : Cell → Nat) (l : List Cell) (hne : l ≠ []) :
    GameState.pyMinBy key l ∈ l := by
  obtain ⟨⟨pre, post, hsplit, _⟩, _⟩ := pyMinBy_firstMin key l hne
  have hmem : GameState.pyMinBy key l ∈ pre ++ GameState.pyMinBy key l :: post := by
    simp
  rw [← hsplit] at hmem
  exact hmem

/-- Every cell produced by `get_unvisited_adjacent_positions` is a
passage, is at Manhattan distance 1 from the player, and is absent from
the move history. -/
theorem mem_unvisited_adjacent (s : GameState) (p : Cell)
    (hp : p ∈ s.get_unvisited_adjacent_positions) :
    s.maze_generator.is_wall p.1 p.2 = false ∧
    (p.1 - s.player.1).natAbs + (p.2 - s.player.2).natAbs = 1 ∧
    s.move_history.contains p = false := by
  unfold GameState.get_unvisited_adjacent_positions at hp
  simp only [List.mem_filterMap] at hp
  obtain ⟨d, hd, hsome⟩ := hp
  split at hsome
  case isTrue hcond =>
      obtain rfl : _ = p := Option.some.injEq _ _ ▸ hsome
      rw [Bool.and_eq_true, Bool.not_eq_true', Bool.not_eq_true'] at hcond
      fin_cases hd <;>
        exact ⟨hcond.1, by omega, hcond.2⟩
  case isFalse => exact absurd hsome (by simp)

/-! ### Behaviour of `move_to_position` in its three cases -/

/-- A wall target makes `move_to_position` fail with no state change. -/
theorem move_to_position_wall (s : GameState) (tx ty : Int)
    (h : s.maze_generator.is_wall tx ty = true) :
    s.move_to_position tx ty = (false, s) := by
  simp [GameState.move_to_position, h]

/-- A passable target at Manhattan distance 1 is applied via
`Player.move`: position updated, one history entry appended, step counter
bumped, success returned. -/
theorem move_to_position_adjacent (s : GameState) (tx ty : Int)
    (hpass : s.maze_generator.is_wall tx ty = false)
    (hadj : (tx - s.player.1).natAbs + (ty - s.player.2).natAbs = 1) :
    s.move_to_position tx ty =
      (true, { s with player := (tx, ty)
                      move_history := s.move_history ++ [(tx, ty)]
                      step_count := s.step_count + 1 }) := by
  have hx : s.player.1 + (tx - s.player.1) = tx := by ring
  have hy : s.player.2 + (ty - s.player.2) = ty := by ring
  simp only [GameState.move_to_position, hpass, Bool.false_eq_true, if_false,
    if_neg (by omega : ¬ ((tx - s.player.1).natAbs + (ty - s.player.2).natAbs ≠ 1)),
    playerMove, hx, hy, Bool.not_false, if_pos rfl]
  simp [hpass]

/-- A passable target that is NOT at Manhattan distance 1 is applied
anyway (the non-adjacent escape hatch): position set, one history entry
appended, step counter bumped, success returned. -/
theorem move_to_position_teleport (s : GameState) (tx ty : Int)
    (hpass : s.maze_generator.is_wall tx ty = false)
    (hfar : (tx - s.player.1).natAbs + (ty - s.player.2).natAbs ≠ 1) :
    s.move_to_position tx ty =
      (true, { s with player := (tx, ty)
                      move_history := s.move_history ++ [(tx, ty)]
                      step_count := s.step_count + 1 }) := by
  simp only [GameState.move_to_position, hpass, Bool.false_eq_true, if_false,
    if_pos hfar, Bool.not_false, if_pos rfl]
  simp

/-- A passable target is always applied, adjacent or not. -/
theorem move_to_position_passable (s : GameState) (tx ty : Int)
    (hpass : s.maze_generator.is_wall tx ty = false) :
    s.move_to_position tx ty =
      (true, { s with player := (tx, ty)
                      move_history := s.move_history ++ [(tx, ty)]
                      step_count := s.step_count + 1 }) := by
  by_cases hadj : (tx - s.player.1).natAbs + (ty - s.player.2).natAbs = 1
  · exact move_to_position_adjacent s tx ty hpass hadj
  · exact move_to_position_teleport s tx ty hpass hadj

/-! ### C7: the non-adjacent escape hatch -/

/-- C7: with no loop override pending (not looping, or no unvisited
adjacent cell) and an oracle proposal that is passable but not
Manhattan-adjacent, the resolver applies it anyway: the move reports
success, the player is relocated to the proposed cell, exactly one history
entry is appended and the step counter is incremented. -/
theorem C7_theorem (s : GameState) (tx ty : Int) (r : Nat)
    (hauto : s.auto_mode = true) (hwon : s.won = false)
    (hno : detect_loop s.move_history 8 = false ∨
           s.get_unvisited_adjacent_positions = [])
    (hpass : s.maze_generator.is_wall tx ty = false)
    (hfar : (tx - s.player.1).natAbs + (ty - s.player.2).natAbs ≠ 1) :
    (s.move_to_position tx ty).1 = true ∧
    (s.handle_auto_move (some (tx, ty)) r).player = (tx, ty) ∧
    (s.handle_auto_move (some (tx, ty)) r).move_history
      = s.move_history ++ [(tx, ty)] ∧
    (s.handle_auto_move (some (tx, ty)) r).step_count = s.step_count + 1 := by
  have hmtp := move_to_position_teleport s tx ty hpass hfar
  have hover : (detect_loop s.move_history 8 &&
      !s.get_unvisited_adjacent_positions.isEmpty) = false := by
    rcases hno with h | h
    · simp [h]
    · simp [h]
  refine ⟨by rw [hmtp], ?_⟩
  unfold GameState.handle_auto_move
  simp only [hauto, hwon, Bool.not_true, Bool.or_false, Bool.false_eq_true,
    if_false, hover, hmtp, Bool.not_true]
  simp

/-- Witness for C7: from the freshly initialised 5×5 game (player at
`(1,1)`), the passable non-adjacent proposal `(3,1)` is applied. -/
theorem C7_witness :
    ((initGame 5 5 (fun _ => 0) true).handle_auto_move (some (3, 1)) 0).player
        = (3, 1) ∧
    ((initGame 5 5 (fun _ => 0) true).handle_auto_move (some (3, 1)) 0).step_count
        = (initGame 5 5 (fun _ => 0) true).step_count + 1 :=
  ⟨(C7_theorem (initGame 5 5 (fun _ => 0) true) 3 1 0 rfl rfl
      (Or.inl (by decide)) (by decide) (by decide)).2.1,
   (C7_theorem (initGame 5 5 (fun _ => 0) true) 3 1 0 rfl rfl
      (Or.inl (by decide)) (by decide) (by decide)).2.2.2⟩

/-! ### C4: wall proposals fail atomically, then the fallback applies -/

/-- C4: a wall target makes `move_to_position` fail atomically (returns
`false`, and player, history and step counter are all unchanged — the
whole state is unchanged); and in the auto-move handler, after such a
failed move, when no loop override fired and an unvisited passable
neighbour exists, the fallback applies the nearest one and appends
exactly one history entry while incrementing the step counter once. -/
theorem C4_theorem (s : GameState) (tx ty : Int) (r : Nat)
    (hwall : s.maze_generator.is_wall tx ty = true) :
    s.move_to_position tx ty = (false, s) ∧
    (s.auto_mode = true → s.won = false →
     detect_loop s.move_history 8 = false →
     s.get_unvisited_adjacent_positions ≠ [] →
     (s.handle_auto_move (some (tx, ty)) r).move_history
       = s.move_history ++
           [GameState.pyMinBy (GameState.manhattanKey s.end_x s.end_y)
              s.get_unvisited_adjacent_positions] ∧
     (s.handle_auto_move (some (tx, ty)) r).step_count = s.step_count + 1) := by
  have hmtp := move_to_position_wall s tx ty hwall
  refine ⟨hmtp, ?_⟩
  intro hauto hwon hloop hunv
  have hover : (detect_loop s.move_history 8 &&
      !s.get_unvisited_adjacent_positions.isEmpty) = false := by simp [hloop]
  have hbest := pyMinBy_mem (GameState.manhattanKey s.end_x s.end_y)
    s.get_unvisited_adjacent_positions hunv
  obtain ⟨hbpass, hbadj, _⟩ := mem_unvisited_adjacent s _ hbest
  have hbmtp := move_to_position_adjacent s _ _ hbpass hbadj
  have hempty : s.get_unvisited_adjacent_positions.isEmpty = false := by
    cases h : s.get_unvisited_adjacent_positions
    · exact absurd h hunv
    · rfl
  unfold GameState.handle_auto_move
  simp only [hauto, hwon, Bool.not_true, Bool.or_false, Bool.false_eq_true,
    if_false, hloop, Bool.false_and, hmtp, hempty, hbmtp]
  simp

/-- Witness for C4: in the freshly initialised 5×5 game the cell `(2,1)`
is a wall; proposing it fails with the state unchanged, and the auto-move
fallback then bumps the step counter by one (appending the unvisited
neighbour `(1,2)`). -/
theorem C4_witness :
    (initGame 5 5 (fun _ => 0) true).move_to_position 2 1
        = (false, initGame 5 5 (fun _ => 0) true) ∧
    ((initGame 5 5 (fun _ => 0) true).handle_auto_move (some (2, 1)) 0).step_count
        = (initGame 5 5 (fun _ => 0) true).step_count + 1 :=
  ⟨(C4_theorem (initGame 5 5 (fun _ => 0) true) 2 1 0 (by decide)).1,
   ((C4_theorem (initGame 5 5 (fun _ => 0) true) 2 1 0 (by decide)).2
      rfl rfl (by decide) (by decide)).2⟩

/-! ### C3: the loop override -/

/-- When the loop signal is up and an unvisited adjacent cell exists,
`handle_auto_move` ignores the oracle entirely and applies the nearest
unvisited adjacent cell. -/
theorem handle_auto_move_override (s : GameState) (llm_next : Option Cell)
    (r : Nat)
    (hauto : s.auto_mode = true) (hwon : s.won = false)
    (hloop : detect_loop s.move_history 8 = true)
    (hunv : s.get_unvisited_adjacent_positions ≠ []) :
    s.handle_auto_move llm_next r
      = GameState.checkWin
          { s with
            player := GameState.pyMinBy (GameState.manhattanKey s.end_x s.end_y)
                        s.get_unvisited_adjacent_positions
            move_history := s.move_history ++
              [GameState.pyMinBy (GameState.manhattanKey s.end_x s.end_y)
                 s.get_unvisited_adjacent_positions]
            step_count := s.step_count + 1 } := by
  have hbest := pyMinBy_mem (GameState.manhattanKey s.end_x s.end_y)
    s.get_unvisited_adjacent_positions hunv
  obtain ⟨hbpass, hbadj, _⟩ := mem_unvisited_adjacent s _ hbest
  have hbmtp := move_to_position_adjacent s _ _ hbpass hbadj
  have hempty : s.get_unvisited_adjacent_positions.isEmpty = false := by
    cases h : s.get_unvisited_adjacent_positions
    · exact absurd h hunv
    · rfl
  unfold GameState.handle_auto_move
  simp only [hauto, hwon, Bool.not_true, Bool.or_false, Bool.false_eq_true,
    if_false, hloop, hempty, Bool.not_false, Bool.true_and, if_pos rfl, hbmtp]
  simp [hauto, hwon, hbmtp]

/-- C3: whenever the loop signal is true and at least one unvisited
adjacent cell exists, the resolver's decision is independent of the
oracle proposal, and it applies the unvisited adjacent cell minimising
Manhattan distance to the goal, ties broken by the first minimal element
of the fixed UP, DOWN, LEFT, RIGHT enumeration (that is what
`get_unvisited_adjacent_positions` enumerates, and `FirstMin` pins the
earliest minimum). -/
theorem C3_theorem (s : GameState) (r : Nat)
    (hauto : s.auto_mode = true) (hwon : s.won = false)
    (hloop : detect_loop s.move_history 8 = true)
    (hunv : s.get_unvisited_adjacent_positions ≠ []) :
    ∀ llm_next llm_next' : Option Cell,
      s.handle_auto_move llm_next r = s.handle_auto_move llm_next' r ∧
      (s.handle_auto_move llm_next r).player
        = GameState.pyMinBy (GameState.manhattanKey s.end_x s.end_y)
            s.get_unvisited_adjacent_positions ∧
      (s.handle_auto_move llm_next r).move_history
        = s.move_history ++
            [GameState.pyMinBy (GameState.manhattanKey s.end_x s.end_y)
               s.get_unvisited_adjacent_positions] ∧
      (s.handle_auto_move llm_next r).step_count = s.step_count + 1 ∧
      FirstMin (GameState.manhattanKey s.end_x s.end_y)
        s.get_unvisited_adjacent_positions
        (GameState.pyMinBy (GameState.manhattanKey s.end_x s.end_y)
           s.get_unvisited_adjacent_positions) := by
  intro llm_next llm_next'
  have h1 := handle_auto_move_override s llm_next r hauto hwon hloop hunv
  have h2 := handle_auto_move_override s llm_next' r hauto hwon hloop hunv
  refine ⟨h1.trans h2.symm, ?_, ?_, ?_, ?_⟩
  · rw [h1]; simp
  · rw [h1]; simp
  · rw [h1]; simp
  · exact pyMinBy_firstMin _ _ hunv

/-- The concrete Move Resolver scenario of the spec: looping is `true`,
the unvisited adjacent set is exactly `{(1,2)}`, the goal is `(19,19)`. -/
def loopSt : GameState :=
  { maze_width := 5
    maze_height := 5
    maze_generator := (MazeGenerator.init 5 5).generate (fun _ => 0) 1 1
    player := (1, 1)
    end_x := 19
    end_y := 19
    won := false
    auto_mode := true
    move_history := [(1, 1), (1, 1), (1, 1), (1, 1), (1, 1), (1, 1), (1, 1), (1, 1)]
    step_count := 7 }

/-- Witness for C3: in `loopSt` (looping, unvisited adjacent = `[(1,2)]`,
goal `(19,19)`), any two proposals produce the same state and the cell
`(1,2)` is applied. -/
theorem C3_witness :
    (loopSt.handle_auto_move (some (3, 1)) 0).player = (1, 2) ∧
    loopSt.handle_auto_move (some (3, 1)) 0 = loopSt.handle_auto_move none 0 :=
  ⟨by
    have h := (C3_theorem loopSt 0 rfl rfl (by decide) (by decide)
      (some (3, 1)) none).2.1
    rw [h]; decide,
   (C3_theorem loopSt 0 rfl rfl (by decide) (by decide)
      (some (3, 1)) none).1⟩

/-! ### C1: the step counter / history-length invariant -/

/-- C1 (amended): every move applied through `move_to_position` — the
manual-equivalent adjacent moves, oracle proposals, the loop override and
the unvisited fallback all go through it — appends exactly one history
entry and increments the step counter exactly once (and a failed move
changes nothing), so `move_to_position` preserves
`step_count = len(move_history) - 1` (stated as
`step_count + 1 = len(move_history)` to avoid truncated subtraction).
The boxed-in random fallback of `handle_auto_move` does NOT preserve it
(see the counterexample). -/
theorem C1_amended_theorem (s : GameState) (tx ty : Int) :
    ((s.move_to_position tx ty).1 = true →
      (s.move_to_position tx ty).2.move_history.length
          = s.move_history.length + 1 ∧
      (s.move_to_position tx ty).2.step_count = s.step_count + 1) ∧
    ((s.move_to_position tx ty).1 = false →
      (s.move_to_position tx ty).2 = s) ∧
    (s.step_count + 1 = s.move_history.length →
      (s.move_to_position tx ty).2.step_count + 1
          = (s.move_to_position tx ty).2.move_history.length) := by
  cases hw : s.maze_generator.is_wall tx ty with
  | true =>
      have hmtp := move_to_position_wall s tx ty hw
      rw [hmtp]
      exact ⟨fun h => by simp at h, fun _ => rfl, fun hinv => hinv⟩
  | false =>
      have hmtp := move_to_position_passable s tx ty hw
      rw [hmtp]
      refine ⟨fun _ => ⟨by simp, rfl⟩, fun h => by simp at h, fun hinv => ?_⟩
      simp only [List.length_append, List.length_cons, List.length_nil]
      omega

/-- Witness for C1 (amended): moving from the initial 5×5 state to the
adjacent passage `(1,2)` succeeds, appends one entry, and preserves the
counter/history relation. -/
theorem C1_amended_witness :
    ((initGame 5 5 (fun _ => 0) true).move_to_position 1 2).2.move_history.length
        = (initGame 5 5 (fun _ => 0) true).move_history.length + 1 ∧
    ((initGame 5 5 (fun _ => 0) true).move_to_position 1 2).2.step_count + 1
        = ((initGame 5 5 (fun _ => 0) true).move_to_position 1 2).2.move_history.length :=
  ⟨((C1_amended_theorem (initGame 5 5 (fun _ => 0) true) 1 2).1 (by decide)).1,
   (C1_amended_theorem (initGame 5 5 (fun _ => 0) true) 1 2).2.2 (by decide)⟩

/-- The reachable session state on which the claimed invariant fails:
start the 5×5 auto game, step to `(1,2)`, back to `(1,1)` (oracle
proposals), then propose the wall `(0,0)` — all neighbours are now
visited, so the boxed-in random fallback moves the player while bumping
only the step counter. -/
def divergedSt : GameState :=
  (((initGame 5 5 (fun _ => 0) true).handle_auto_move (some (1, 2)) 0).handle_auto_move
      (some (1, 1)) 0).handle_auto_move (some (0, 0)) 0

/-- C1 counterexample: `divergedSt` is reachable, yet its step counter is
3 while its move history still has 3 entries — the boxed-in random
fallback (`maze_game.py` lines 532-546) increments `step_count` without
appending to `move_history` (the moved-to cell is already in the
history), so the claimed equality `step_count = len(move_history) - 1`
fails on a reachable state. -/
theorem C1_counterexample :
    Reachable divergedSt ∧
    divergedSt.step_count ≠ divergedSt.move_history.length - 1 := by
  constructor
  · unfold divergedSt
    exact .auto_step _ _ _ (.auto_step _ _ _ (.auto_step _ _ _
      (.init 5 5 (fun _ => 0) true (by decide) (by decide))))
  · decide

/-! ### C10: the player always stands on an in-bounds passage -/

/-- Core of C9 reused by the session invariant: the generated maze always
has a passage at `(1,1)`. -/
theorem generate_start_passage (W H : Int) (rand : Nat → Nat)
    (hW : 3 ≤ W) (hH : 3 ≤ H) :
    ((MazeGenerator.init W H).generate rand 1 1).is_wall 1 1 = false := by
  have hW' : ((MazeGenerator.init W H).generate rand 1 1).width = W :=
    (generate_dims (MazeGenerator.init W H) rand 1 1).1
  have hH' : ((MazeGenerator.init W H).generate rand 1 1).height = H :=
    (generate_dims (MazeGenerator.init W H) rand 1 1).2
  have hv : ((MazeGenerator.init W H).generate rand 1 1).is_valid 1 1 = true := by
    rw [is_valid_iff, hW', hH']
    exact ⟨by omega, by omega, by omega, by omega⟩
  have hmaze := (generate_maze_start_goal (MazeGenerator.init W H) rand 1 1).1
  simp only [MazeGenerator.is_wall, hv, if_true]
  exact hmaze

/-- `Player.move` lands on a passage whenever it started on one. -/
theorem playerMove_is_wall (g : MazeGenerator) (p : Cell) (dx dy : Int)
    (hp : g.is_wall p.1 p.2 = false) :
    g.is_wall (playerMove g p dx dy).2.1 (playerMove g p dx dy).2.2 = false := by
  cases hw : g.is_wall (p.1 + dx) (p.2 + dy) with
  | false =>
      have hm : playerMove g p dx dy = (true, (p.1 + dx, p.2 + dy)) := by
        simp [playerMove, hw]
      rw [hm]
      exact hw
  | true =>
      have hm : playerMove g p dx dy = (false, p) := by
        simp [playerMove, hw]
      rw [hm]
      exact hp

/-- The session invariant behind C10: sane stored dimensions, a grid of
those dimensions, and the player on an in-bounds passage. -/
def SessionInv (s : GameState) : Prop :=
  3 ≤ s.maze_width ∧ 3 ≤ s.maze_height ∧
  s.maze_generator.width = s.maze_width ∧
  s.maze_generator.height = s.maze_height ∧
  s.maze_generator.is_wall s.player.1 s.player.2 = false

theorem sessionInv_checkWin (s : GameState) (h : SessionInv s) :
    SessionInv (GameState.checkWin s) := by
  unfold GameState.checkWin
  split <;> exact h

theorem sessionInv_mtp (s : GameState) (tx ty : Int) (h : SessionInv s) :
    SessionInv (s.move_to_position tx ty).2 := by
  obtain ⟨h1, h2, h3, h4, h5⟩ := h
  cases hw : s.maze_generator.is_wall tx ty with
  | false =>
      rw [move_to_position_passable s tx ty hw]
      exact ⟨h1, h2, h3, h4, hw⟩
  | true =>
      rw [move_to_position_wall s tx ty hw]
      exact ⟨h1, h2, h3, h4, h5⟩

theorem sessionInv_auto (s : GameState) (llm : Option Cell) (r : Nat)
    (h : SessionInv s) : SessionInv (s.handle_auto_move llm r) := by
  unfold GameState.handle_auto_move
  split
  · exact h
  · dsimp only
    split
    · exact h
    · apply sessionInv_checkWin
      split
      · split
        · exact sessionInv_mtp _ _ _ (sessionInv_mtp s _ _ h)
        · split
          · rename_i np heq hm hnu hav
            have hmtp := sessionInv_mtp s np.1 np.2 h
            exact ⟨hmtp.1, hmtp.2.1, hmtp.2.2.1, hmtp.2.2.2.1,
              playerMove_is_wall _ _ _ _ hmtp.2.2.2.2⟩
          · exact sessionInv_mtp s _ _ h
      · exact sessionInv_mtp s _ _ h

theorem sessionInv_manual (s : GameState) (k : GameState.ArrowKey)
    (h : SessionInv s) : SessionInv (s.manual_move k) := by
  unfold GameState.manual_move
  split
  · exact h
  · apply sessionInv_checkWin
    split
    · exact ⟨h.1, h.2.1, h.2.2.1, h.2.2.2.1,
        playerMove_is_wall _ _ _ _ h.2.2.2.2⟩
    · exact ⟨h.1, h.2.1, h.2.2.1, h.2.2.2.1,
        playerMove_is_wall _ _ _ _ h.2.2.2.2⟩

theorem sessionInv_reset (s : GameState) (rand : Nat → Nat)
    (h : SessionInv s) : SessionInv (s.reset_game rand) := by
  obtain ⟨h1, h2, _, _, _⟩ := h
  have hdims := generate_dims (MazeGenerator.init s.maze_width s.maze_height) rand 1 1
  exact ⟨h1, h2, hdims.1, hdims.2,
    generate_start_passage s.maze_width s.maze_height rand h1 h2⟩

theorem sessionInv_init (w h : Int) (rand : Nat → Nat) (auto : Bool)
    (hw : 3 ≤ w) (hh : 3 ≤ h) : SessionInv (initGame w h rand auto) := by
  have hdims := generate_dims (MazeGenerator.init w h) rand 1 1
  exact ⟨hw, hh, hdims.1, hdims.2, generate_start_passage w h rand hw hh⟩

theorem sessionInv_reachable (s : GameState) (h : Reachable s) :
    SessionInv s := by
  induction h with
  | init w h rand auto hw hh => exact sessionInv_init w h rand auto hw hh
  | auto_step s llm r _ ih => exact sessionInv_auto s llm r ih
  | manual s k _ ih => exact sessionInv_manual s k ih
  | toggle s _ ih => exact ih
  | reset s rand _ ih => exact sessionInv_reset s rand ih

/-- C10: in every reachable session state the player's current cell is an
in-bounds passage — `is_wall` is false at the player's position (and
`is_wall` is true off-grid, so this also forces the position in bounds). -/
theorem C10_theorem (s : GameState) (h : Reachable s) :
    s.maze_generator.is_wall s.player.1 s.player.2 = false :=
  (sessionInv_reachable s h).2.2.2.2

/-- Witness for C10 on the concrete initial 5×5 auto-mode session. -/
theorem C10_witness :
    (initGame 5 5 (fun _ => 0) true).maze_generator.is_wall
      (initGame 5 5 (fun _ => 0) true).player.1
      (initGame 5 5 (fun _ => 0) true).player.2 = false :=
  C10_theorem (initGame 5 5 (fun _ => 0) true)
    (Reachable.init 5 5 (fun _ => 0) true (by decide) (by decide))

/-! ### C5: infrastructure — cells, counts, flood-fill reachability -/

/-- The in-bounds cells of a `width × height` grid, as a finite set. -/
def validCells (W H : Int) : Finset Cell :=
  Finset.Icc 0 (W - 1) ×ˢ Finset.Icc 0 (H - 1)

theorem mem_validCells_iff (W H : Int) (p : Cell) :
    p ∈ validCells W H ↔ (0 ≤ p.1 ∧ p.1 < W ∧ 0 ≤ p.2 ∧ p.2 < H) := by
  unfold validCells
  rw [Finset.mem_product, Finset.mem_Icc, Finset.mem_Icc]
  omega

/-- A cell with exactly one odd coordinate: the physical position of a
carved edge of the coarse graph. -/
def isMixed (p : Cell) : Prop :=
  (p.1 % 2 = 1 ∧ p.2 % 2 = 0) ∨ (p.1 % 2 = 0 ∧ p.2 % 2 = 1)

instance (p : Cell) : Decidable (isMixed p) := by
  unfold isMixed
  infer_instance

/-- Number of coarse-graph nodes: in-bounds cells with both coordinates
odd. -/
def coarseCard (W H : Int) : Nat :=
  ((validCells W H).filter (fun p => p.1 % 2 = 1 ∧ p.2 % 2 = 1)).card

/-- Number of carved edges, read off the final grid: in-bounds passage
cells with exactly one odd coordinate (each carved edge clears exactly
one such cell, its midpoint, and no other operation clears one). -/
def carvedEdgeCard (g : MazeGenerator) : Nat :=
  ((validCells g.width g.height).filter
    (fun p => g.maze p = false ∧ isMixed p)).card

/-- Number of visited DFS nodes. -/
def visitedCard (g : MazeGenerator) : Nat :=
  ((validCells g.width g.height).filter (fun p => g.visited p = true)).card

/-- Number of in-bounds unvisited cells (the loop-termination measure). -/
def unvisitedCard (g : MazeGenerator) : Nat :=
  ((validCells g.width g.height).filter (fun p => g.visited p = false)).card

/-- One flood-fill step: a Manhattan-adjacent passage cell. -/
def MoveStep (g : MazeGenerator) (p q : Cell) : Prop :=
  (q.1 - p.1).natAbs + (q.2 - p.2).natAbs = 1 ∧ g.is_wall q.1 q.2 = false

/-- Flood-fill reachability through passage cells. -/
def ReachG (g : MazeGenerator) (p q : Cell) : Prop :=
  Relation.ReflTransGen (MoveStep g) p q

theorem is_wall_false_iff (g : MazeGenerator) (x y : Int) :
    g.is_wall x y = false ↔
      g.is_valid x y = true ∧ g.maze (x, y) = false := by
  unfold MazeGenerator.is_wall
  cases hv : g.is_valid x y <;> simp [hv]

/-- Reachability only grows when walls are cleared (with dimensions
unchanged). -/
theorem reachG_mono (g g' : MazeGenerator)
    (hw : g'.width = g.width) (hh : g'.height = g.height)
    (hmaze : ∀ p : Cell, g.maze p = false → g'.maze p = false)
    (p q : Cell) (h : ReachG g p q) : ReachG g' p q := by
  refine Relation.ReflTransGen.mono ?_ h
  intro a b hab
  obtain ⟨h1, h2⟩ := hab
  rw [is_wall_false_iff] at h2
  refine ⟨h1, ?_⟩
  rw [is_wall_false_iff]
  refine ⟨?_, hmaze _ h2.2⟩
  rw [is_valid_iff] at h2 ⊢
  rw [hw, hh]
  exact h2.1

theorem getD_mem_of_lt : ∀ (l : List Cell) (i : Nat) (d : Cell),
    i < l.length → l.getD i d ∈ l
  | a :: l, 0, d, _ => List.mem_cons_self a l
  | a :: l, i + 1, d, h =>
      List.mem_cons_of_mem a (getD_mem_of_lt l i d (by simpa using h))

/-- Characterisation of the cells returned by `get_neighbors`. -/
theorem mem_get_neighbors (g : MazeGenerator) (x y : Int) (p : Cell)
    (hp : p ∈ g.get_neighbors x y) :
    ∃ d ∈ MazeGenerator.strideDirs,
      p = (x + d.1, y + d.2) ∧ g.is_valid p.1 p.2 = true ∧
        g.visited p = false := by
  unfold MazeGenerator.get_neighbors at hp
  simp only [List.mem_filterMap] at hp
  obtain ⟨d, hd, hsome⟩ := hp
  split at hsome
  case isTrue hc =>
      obtain rfl : _ = p := (Option.some.injEq _ _).mp hsome
      rw [Bool.and_eq_true, Bool.not_eq_true'] at hc
      exact ⟨d, hd, rfl, hc.1, hc.2⟩
  case isFalse => exact absurd hsome (by simp)

/-- When `get_neighbors` is empty, every in-bounds stride-2 neighbour is
already visited. -/
theorem get_neighbors_nil (g : MazeGenerator) (x y : Int)
    (h : g.get_neighbors x y = []) :
    ∀ d ∈ MazeGenerator.strideDirs,
      g.is_valid (x + d.1) (y + d.2) = true →
        g.visited (x + d.1, y + d.2) = true := by
  intro d hd hv
  unfold MazeGenerator.get_neighbors at h
  rw [List.filterMap_eq_nil_iff] at h
  have hnone := h d hd
  by_cases hvis : g.visited (x + d.1, y + d.2) = true
  · exact hvis
  · exfalso
    rw [Bool.not_eq_true] at hvis
    simp only [hv, hvis, Bool.not_false, Bool.and_self, if_true] at hnone
    exact Option.some_ne_none _ hnone

/-- Auxiliary counting step: if `Q` holds exactly where `P` holds plus at
one new point `p0` of `s`, the filtered count grows by one. -/
theorem card_filter_insert (s : Finset Cell) (P Q : Cell → Prop)
    [DecidablePred P] [DecidablePred Q]
    (p0 : Cell) (hp0 : p0 ∈ s) (hnp : ¬ P p0)
    (hiff : ∀ q, Q q ↔ (P q ∨ q = p0)) :
    (s.filter Q).card = (s.filter P).card + 1 := by
  have hset : s.filter Q = insert p0 (s.filter P) := by
    ext q
    simp only [Finset.mem_filter, Finset.mem_insert, hiff]
    constructor
    · rintro ⟨hqs, hq | rfl⟩
      · exact Or.inr ⟨hqs, hq⟩
      · exact Or.inl rfl
    · rintro (rfl | ⟨hqs, hq⟩)
      · exact ⟨hp0, Or.inr rfl⟩
      · exact ⟨hqs, Or.inl hq⟩
  rw [hset, Finset.card_insert_of_not_mem]
  intro hmem
  exact hnp (Finset.mem_filter.mp hmem).2

/-- The coarse grid graph (odd-coordinate nodes, stride-2 edges) is
connected: any predicate holding at `(1,1)` and closed under in-bounds
stride-2 steps holds at every in-bounds odd-odd node. -/
theorem coarse_all_of_closed (W H : Int)
    (S : Cell → Prop) (h11 : S (1, 1))
    (hclosed : ∀ v : Cell, S v → ∀ d ∈ MazeGenerator.strideDirs,
      0 ≤ v.1 + d.1 → v.1 + d.1 < W → 0 ≤ v.2 + d.2 → v.2 + d.2 < H →
      S (v.1 + d.1, v.2 + d.2)) :
    ∀ p : Cell, p.1 % 2 = 1 → p.2 % 2 = 1 →
      0 ≤ p.1 → p.1 < W → 0 ≤ p.2 → p.2 < H → S p := by
  suffices hs : ∀ (n : Nat) (p : Cell), (p.1 + p.2).toNat = n →
      p.1 % 2 = 1 → p.2 % 2 = 1 →
      0 ≤ p.1 → p.1 < W → 0 ≤ p.2 → p.2 < H → S p by
    intro p h1 h2 h3 h4 h5 h6
    exact hs ((p.1 + p.2).toNat) p rfl h1 h2 h3 h4 h5 h6
  intro n
  induction n using Nat.strong_induction_on with
  | _ n ih =>
      rintro ⟨px, py⟩ hn h1 h2 h3 h4 h5 h6
      simp only at hn h1 h2 h3 h4 h5 h6
      by_cases hx1 : px = 1
      · by_cases hy1 : py = 1
        · rw [hx1, hy1] at *
          exact h11
        · have hy3 : 3 ≤ py := by omega
          have hq : S (px, py - 2) :=
            ih ((px + (py - 2)).toNat) (by omega) (px, py - 2) rfl h1
              (by omega) h3 h4 (by omega) (by omega)
          have hstep := hclosed (px, py - 2) hq (0, 2)
            (by simp [MazeGenerator.strideDirs]) (by simpa using h3)
            (by simpa using h4) (by simp; omega) (by simp; omega)
          have heq : ((px, py - 2).1 + (0 : Int), (px, py - 2).2 + 2)
              = ((px : Int), py) := by
            simp only [Prod.mk.injEq]
            constructor <;> omega
          rw [heq] at hstep
          exact hstep
      · have hx3 : 3 ≤ px := by omega
        have hq : S (px - 2, py) :=
          ih (((px - 2) + py).toNat) (by omega) (px - 2, py) rfl
            (by omega) h2 (by omega) (by omega) h5 h6
        have hstep := hclosed (px - 2, py) hq (2, 0)
          (by simp [MazeGenerator.strideDirs]) (by simp; omega)
          (by simp; omega) (by simpa using h5) (by simpa using h6)
        have heq : ((px - 2, py).1 + (2 : Int), (px - 2, py).2 + 0)
            = ((px : Int), py) := by
          simp only [Prod.mk.injEq]
          constructor <;> omega
        rw [heq] at hstep
        exact hstep

/-- Facts about a freshly chosen DFS neighbour `n` of the odd in-bounds
node `(x, y)`, and about the midpoint cell `remove_wall` clears between
them: `n` is a valid unvisited odd-odd node, the midpoint is a valid
mixed-parity cell Manhattan-adjacent to both, and its two axis
neighbours (along its even coordinate) are exactly `(x, y)` and `n`. -/
theorem neighbor_mid_facts (g : MazeGenerator) (x y : Int)
    (hx : x % 2 = 1) (hy : y % 2 = 1)
    (hxv : g.is_valid x y = true) (n : Cell)
    (hn : n ∈ g.get_neighbors x y) :
    g.is_valid n.1 n.2 = true ∧ g.visited n = false ∧
    n.1 % 2 = 1 ∧ n.2 % 2 = 1 ∧
    ((x + n.1) / 2 - x).natAbs + ((y + n.2) / 2 - y).natAbs = 1 ∧
    (n.1 - (x + n.1) / 2).natAbs + (n.2 - (y + n.2) / 2).natAbs = 1 ∧
    g.is_valid ((x + n.1) / 2) ((y + n.2) / 2) = true ∧
    isMixed ((x + n.1) / 2, (y + n.2) / 2) ∧
    (((x + n.1) / 2) % 2 = 1 → ((y + n.2) / 2) % 2 = 0 →
      ((((x + n.1) / 2, (y + n.2) / 2 - 1) = ((x : Int), y) ∨
        ((x + n.1) / 2, (y + n.2) / 2 - 1) = n) ∧
       (((x + n.1) / 2, (y + n.2) / 2 + 1) = ((x : Int), y) ∨
        ((x + n.1) / 2, (y + n.2) / 2 + 1) = n))) ∧
    (((x + n.1) / 2) % 2 = 0 → ((y + n.2) / 2) % 2 = 1 →
      ((((x + n.1) / 2 - 1, (y + n.2) / 2) = ((x : Int), y) ∨
        ((x + n.1) / 2 - 1, (y + n.2) / 2) = n) ∧
       (((x + n.1) / 2 + 1, (y + n.2) / 2) = ((x : Int), y) ∨
        ((x + n.1) / 2 + 1, (y + n.2) / 2) = n))) := by
  obtain ⟨d, hd, rfl, hv, hnv⟩ := mem_get_neighbors g x y n hn
  rw [is_valid_iff] at hxv
  simp only [MazeGenerator.strideDirs, List.mem_cons, List.not_mem_nil,
    or_false] at hd
  rcases hd with rfl | rfl | rfl | rfl <;>
    · dsimp only at hv ⊢
      rw [is_valid_iff] at hv
      refine ⟨by rw [is_valid_iff]; omega, hnv, by omega, by omega,
        by omega, by omega, by rw [is_valid_iff]; omega,
        by unfold isMixed; omega, ?_, ?_⟩ <;>
        · intro hp1 hp2
          constructor <;>
            · simp only [Prod.mk.injEq]
              omega

/-- The grid state after one push iteration of the carving loop: clear
the midpoint (`remove_wall`), mark the chosen node visited, clear it.
Definitionally equal to the state `carve` recurses on. -/
def carveStep (g : MazeGenerator) (x y : Int) (n : Cell) : MazeGenerator :=
  { width := g.width
    height := g.height
    maze := updf (updf g.maze ((x + n.1) / 2, (y + n.2) / 2) false) n false
    visited := updf g.visited n true }

/-- The inductive invariant of the carving loop. -/
structure CarveInv (g : MazeGenerator) (stack : List Cell) : Prop where
  visOdd : ∀ p : Cell, g.visited p = true →
    p.1 % 2 = 1 ∧ p.2 % 2 = 1 ∧ g.is_valid p.1 p.2 = true
  startVis : g.visited (1, 1) = true
  nodeIff : ∀ p : Cell, p.1 % 2 = 1 → p.2 % 2 = 1 →
    (g.maze p = false ↔ g.visited p = true)
  stackVis : ∀ p ∈ stack, g.visited p = true
  stackNodup : stack.Nodup
  reach : ∀ p : Cell, g.maze p = false → ReachG g (1, 1) p
  closure : ∀ v : Cell, g.visited v = true → v ∉ stack →
    ∀ d ∈ MazeGenerator.strideDirs,
      g.is_valid (v.1 + d.1) (v.2 + d.2) = true →
      g.visited (v.1 + d.1, v.2 + d.2) = true
  midVis : ∀ p : Cell, g.maze p = false →
    (p.1 % 2 = 1 → p.2 % 2 = 0 →
      g.visited (p.1, p.2 - 1) = true ∧ g.visited (p.1, p.2 + 1) = true) ∧
    (p.1 % 2 = 0 → p.2 % 2 = 1 →
      g.visited (p.1 - 1, p.2) = true ∧ g.visited (p.1 + 1, p.2) = true)
  count : carvedEdgeCard g + 1 = visitedCard g

/-- A push step of the carving loop preserves the invariant and visits
exactly one new cell. -/
theorem carveInv_push (g : MazeGenerator) (x y : Int) (rest : List Cell)
    (hinv : CarveInv g ((x, y) :: rest)) (n : Cell)
    (hn : n ∈ g.get_neighbors x y) :
    CarveInv (carveStep g x y n) (n :: (x, y) :: rest) ∧
    unvisitedCard (carveStep g x y n) + 1 = unvisitedCard g := by
  have hxyvis : g.visited (x, y) = true :=
    hinv.stackVis _ (List.mem_cons_self _ _)
  have hxy := hinv.visOdd (x, y) hxyvis
  obtain ⟨hnval, hnvis, hn1, hn2, hadj1, hadj2, hmval, hmmix, hmops1, hmops2⟩ :=
    neighbor_mid_facts g x y hxy.1 hxy.2.1 hxy.2.2 n hn
  have hmaze2 : ∀ q : Cell, (carveStep g x y n).maze q =
      if q = n then false
      else if q = ((x + n.1) / 2, (y + n.2) / 2) then false
      else g.maze q := fun q => rfl
  have hvis2 : ∀ q : Cell, (carveStep g x y n).visited q =
      if q = n then true else g.visited q := fun q => rfl
  have hmn : ((x + n.1) / 2, (y + n.2) / 2) ≠ n := by
    intro h
    rw [h] at hmmix
    unfold isMixed at hmmix
    omega
  have hnxy : n ≠ (x, y) := by
    intro h
    rw [h] at hnvis
    rw [hnvis] at hxyvis
    exact absurd hxyvis (by simp)
  have hmono : ∀ q : Cell, g.maze q = false → (carveStep g x y n).maze q = false := by
    intro q hq
    rw [hmaze2]
    split
    · rfl
    · split
      · rfl
      · exact hq
  have hrmono : ∀ p q : Cell, ReachG g p q → ReachG (carveStep g x y n) p q :=
    reachG_mono g (carveStep g x y n) rfl rfl hmono
  have hxy_maze : g.maze (x, y) = false :=
    (hinv.nodeIff (x, y) hxy.1 hxy.2.1).mpr hxyvis
  have hm_maze_before : g.maze ((x + n.1) / 2, (y + n.2) / 2) = true := by
    by_contra hc
    rw [Bool.not_eq_true] at hc
    have hmv := hinv.midVis _ hc
    unfold isMixed at hmmix
    rcases hmmix with ⟨h1, h2⟩ | ⟨h1, h2⟩
    · obtain ⟨ha, hb⟩ := hmv.1 h1 h2
      obtain ⟨hoa, hob⟩ := hmops1 h1 h2
      rcases hoa with hoa | hoa
      · rcases hob with hob | hob
        · have e1 := congrArg Prod.snd hoa
          have e2 := congrArg Prod.snd hob
          simp only at e1 e2
          omega
        · rw [hob] at hb
          rw [hb] at hnvis
          exact absurd hnvis (by simp)
      · rw [hoa] at ha
        rw [ha] at hnvis
        exact absurd hnvis (by simp)
    · obtain ⟨ha, hb⟩ := hmv.2 h1 h2
      obtain ⟨hoa, hob⟩ := hmops2 h1 h2
      rcases hoa with hoa | hoa
      · rcases hob with hob | hob
        · have e1 := congrArg Prod.fst hoa
          have e2 := congrArg Prod.fst hob
          simp only at e1 e2
          omega
        · rw [hob] at hb
          rw [hb] at hnvis
          exact absurd hnvis (by simp)
      · rw [hoa] at ha
        rw [ha] at hnvis
        exact absurd hnvis (by simp)
  have hstep1 : MoveStep (carveStep g x y n) (x, y) ((x + n.1) / 2, (y + n.2) / 2) := by
    refine ⟨hadj1, ?_⟩
    rw [is_wall_false_iff]
    refine ⟨hmval, ?_⟩
    rw [hmaze2]
    rw [if_neg hmn, if_pos rfl]
  have hstep2 : MoveStep (carveStep g x y n) ((x + n.1) / 2, (y + n.2) / 2) n := by
    refine ⟨hadj2, ?_⟩
    rw [is_wall_false_iff]
    refine ⟨hnval, ?_⟩
    rw [hmaze2, if_pos rfl]
  constructor
  · constructor
    -- visOdd
    case visOdd =>
      intro p hp
      rw [hvis2] at hp
      by_cases hpn : p = n
      · rw [hpn]
        exact ⟨hn1, hn2, hnval⟩
      · rw [if_neg hpn] at hp
        exact hinv.visOdd p hp
    -- startVis
    case startVis =>
      rw [hvis2]
      split
      · rfl
      · exact hinv.startVis
    -- nodeIff
    case nodeIff =>
      intro p h1 h2
      rw [hmaze2, hvis2]
      by_cases hpn : p = n
      · rw [if_pos hpn, if_pos hpn]
        simp
      · rw [if_neg hpn, if_neg hpn]
        by_cases hpm : p = ((x + n.1) / 2, (y + n.2) / 2)
        · exfalso
          rw [hpm] at h1 h2
          unfold isMixed at hmmix
          omega
        · rw [if_neg hpm]
          exact hinv.nodeIff p h1 h2
    -- stackVis
    case stackVis =>
      intro p hp
      rw [hvis2]
      by_cases hpn : p = n
      · rw [if_pos hpn]
      · rw [if_neg hpn]
        rcases List.mem_cons.mp hp with h | h
        · exact absurd h hpn
        · exact hinv.stackVis p h
    -- stackNodup
    case stackNodup =>
      refine List.Nodup.cons ?_ hinv.stackNodup
      intro hmem
      have := hinv.stackVis n hmem
      rw [this] at hnvis
      exact absurd hnvis (by simp)
    -- reach
    case reach =>
      intro p hp
      rw [hmaze2] at hp
      by_cases hpn : p = n
      · rw [hpn]
        exact ((hrmono _ _ (hinv.reach _ hxy_maze)).tail hstep1).tail hstep2
      · rw [if_neg hpn] at hp
        by_cases hpm : p = ((x + n.1) / 2, (y + n.2) / 2)
        · rw [hpm]
          exact (hrmono _ _ (hinv.reach _ hxy_maze)).tail hstep1
        · rw [if_neg hpm] at hp
          exact hrmono _ _ (hinv.reach p hp)
    -- closure
    case closure =>
      intro v hv hnotin d hd hval
      have hvn : v ≠ n := by
        intro h
        exact hnotin (h ▸ List.mem_cons_self n _)
      rw [hvis2, if_neg hvn] at hv
      have hnotin' : v ∉ (x, y) :: rest := by
        intro h
        exact hnotin (List.mem_cons_of_mem n h)
      have := hinv.closure v hv hnotin' d hd hval
      rw [hvis2]
      split
      · rfl
      · exact this
    -- midVis
    case midVis =>
      intro p hp
      rw [hmaze2] at hp
      by_cases hpn : p = n
      · constructor
        · intro h1 h2
          exfalso
          rw [hpn] at h2
          omega
        · intro h1 h2
          exfalso
          rw [hpn] at h1
          omega
      · rw [if_neg hpn] at hp
        by_cases hpm : p = ((x + n.1) / 2, (y + n.2) / 2)
        · subst hpm
          constructor
          · intro h1 h2
            obtain ⟨hoa, hob⟩ := hmops1 h1 h2
            constructor
            · rw [hvis2]
              rcases hoa with hoa | hoa
              · rw [hoa]
                split
                · rfl
                · exact hxyvis
              · rw [hoa, if_pos rfl]
            · rw [hvis2]
              rcases hob with hob | hob
              · rw [hob]
                split
                · rfl
                · exact hxyvis
              · rw [hob, if_pos rfl]
          · intro h1 h2
            obtain ⟨hoa, hob⟩ := hmops2 h1 h2
            constructor
            · rw [hvis2]
              rcases hoa with hoa | hoa
              · rw [hoa]
                split
                · rfl
                · exact hxyvis
              · rw [hoa, if_pos rfl]
            · rw [hvis2]
              rcases hob with hob | hob
              · rw [hob]
                split
                · rfl
                · exact hxyvis
              · rw [hob, if_pos rfl]
        · rw [if_neg hpm] at hp
          have hmv := hinv.midVis p hp
          constructor
          · intro h1 h2
            obtain ⟨ha, hb⟩ := hmv.1 h1 h2
            constructor
            · rw [hvis2]
              split
              · rfl
              · exact ha
            · rw [hvis2]
              split
              · rfl
              · exact hb
          · intro h1 h2
            obtain ⟨ha, hb⟩ := hmv.2 h1 h2
            constructor
            · rw [hvis2]
              split
              · rfl
              · exact ha
            · rw [hvis2]
              split
              · rfl
              · exact hb
    -- count
    case count =>
      have hmemN : n ∈ validCells g.width g.height := by
        rw [mem_validCells_iff]
        rw [is_valid_iff] at hnval
        exact hnval
      have hmemM : ((x + n.1) / 2, (y + n.2) / 2) ∈ validCells g.width g.height := by
        rw [mem_validCells_iff]
        rw [is_valid_iff] at hmval
        exact hmval
      have hce : carvedEdgeCard (carveStep g x y n) = carvedEdgeCard g + 1 := by
        unfold carvedEdgeCard
        refine card_filter_insert (validCells g.width g.height)
          (fun q => g.maze q = false ∧ isMixed q)
          (fun q => (carveStep g x y n).maze q = false ∧ isMixed q)
          ((x + n.1) / 2, (y + n.2) / 2) hmemM ?_ ?_
        · rintro ⟨hf, _⟩
          rw [hm_maze_before] at hf
          exact absurd hf (by simp)
        · intro q
          dsimp only
          rw [hmaze2]
          by_cases hqn : q = n
          · subst hqn
            rw [if_pos rfl]
            constructor
            · rintro ⟨_, hmix⟩
              exfalso
              unfold isMixed at hmix
              omega
            · rintro (⟨_, hmix⟩ | hqm)
              · exfalso
                unfold isMixed at hmix
                omega
              · exact absurd hqm.symm hmn
          · rw [if_neg hqn]
            by_cases hqm : q = ((x + n.1) / 2, (y + n.2) / 2)
            · subst hqm
              rw [if_pos rfl]
              constructor
              · intro _
                exact Or.inr rfl
              · intro _
                exact ⟨rfl, hmmix⟩
            · rw [if_neg hqm]
              constructor
              · intro h
                exact Or.inl h
              · rintro (h | h)
                · exact h
                · exact absurd h hqm
      have hvc : visitedCard (carveStep g x y n) = visitedCard g + 1 := by
        unfold visitedCard
        refine card_filter_insert (validCells g.width g.height)
          (fun q => g.visited q = true)
          (fun q => (carveStep g x y n).visited q = true)
          n hmemN ?_ ?_
        · intro h
          rw [h] at hnvis
          exact absurd hnvis (by simp)
        · intro q
          dsimp only
          rw [hvis2]
          by_cases hqn : q = n
          · subst hqn
            rw [if_pos rfl]
            simp
          · rw [if_neg hqn]
            constructor
            · intro h
              exact Or.inl h
            · rintro (h | h)
              · exact h
              · exact absurd h hqn
      rw [hce, hvc]
      have := hinv.count
      omega
  · -- the measure: one cell fewer unvisited
    have hmemN : n ∈ validCells g.width g.height := by
      rw [mem_validCells_iff]
      rw [is_valid_iff] at hnval
      exact hnval
    have : unvisitedCard g = unvisitedCard (carveStep g x y n) + 1 := by
      unfold unvisitedCard
      refine card_filter_insert (validCells g.width g.height)
        (fun q => (carveStep g x y n).visited q = false)
        (fun q => g.visited q = false)
        n hmemN ?_ ?_
      · intro h
        rw [hvis2, if_pos rfl] at h
        exact absurd h (by simp)
      · intro q
        dsimp only
        rw [hvis2]
        by_cases hqn : q = n
        · subst hqn
          rw [if_pos rfl]
          simp [hnvis]
        · rw [if_neg hqn]
          constructor
          · intro h
            exact Or.inl h
          · rintro (h | h)
            · exact h
            · exact absurd h hqn
    omega

theorem carve_rec_empty (rand : Nat → Nat) (fuel : Nat) (g : MazeGenerator)
    (t : Nat) : MazeGenerator.carve rand (fuel + 1) g [] t = g := rfl

theorem carve_rec_nil (rand : Nat → Nat) (fuel : Nat) (g : MazeGenerator)
    (x y : Int) (rest : List Cell) (t : Nat)
    (hn : g.get_neighbors x y = []) :
    MazeGenerator.carve rand (fuel + 1) g ((x, y) :: rest) t
      = MazeGenerator.carve rand fuel g rest (t + 1) := by
  simp only [MazeGenerator.carve, hn]

theorem carve_rec_cons (rand : Nat → Nat) (fuel : Nat) (g : MazeGenerator)
    (x y : Int) (rest : List Cell) (t : Nat) (n0 : Cell) (ns : List Cell)
    (hn : g.get_neighbors x y = n0 :: ns) :
    MazeGenerator.carve rand (fuel + 1) g ((x, y) :: rest) t
      = MazeGenerator.carve rand fuel
          (carveStep g x y ((n0 :: ns).getD (rand t % (n0 :: ns).length) n0))
          (((n0 :: ns).getD (rand t % (n0 :: ns).length) n0) :: (x, y) :: rest)
          (t + 1) := by
  simp only [MazeGenerator.carve, hn]
  rfl

/-- Main induction: started with the invariant and enough fuel, the
carving loop drains its stack and yields a grid satisfying the invariant
with an empty stack. -/
theorem carve_post (rand : Nat → Nat) :
    ∀ (fuel : Nat) (g : MazeGenerator) (stack : List Cell) (t : Nat),
      CarveInv g stack →
      2 * unvisitedCard g + stack.length < fuel →
      CarveInv (MazeGenerator.carve rand fuel g stack t) [] := by
  intro fuel
  induction fuel with
  | zero =>
      intro g stack t _ hm
      exact absurd hm (by omega)
  | succ fuel ih =>
      intro g stack t hinv hm
      rcases stack with _ | ⟨⟨x, y⟩, rest⟩
      · rw [carve_rec_empty]
        exact hinv
      · cases hn : g.get_neighbors x y with
        | nil =>
            rw [carve_rec_nil rand fuel g x y rest t hn]
            refine ih g rest (t + 1) ?_ ?_
            · refine ⟨hinv.visOdd, hinv.startVis, hinv.nodeIff, ?_, ?_,
                hinv.reach, ?_, hinv.midVis, hinv.count⟩
              · intro p hp
                exact hinv.stackVis p (List.mem_cons_of_mem _ hp)
              · exact List.Nodup.of_cons hinv.stackNodup
              · intro v hv hnotin d hd hval
                by_cases hvxy : v = (x, y)
                · subst hvxy
                  exact get_neighbors_nil g x y hn d hd hval
                · refine hinv.closure v hv ?_ d hd hval
                  intro hmem
                  rcases List.mem_cons.mp hmem with h | h
                  · exact hvxy h
                  · exact hnotin h
            · simp only [List.length_cons] at hm
              omega
        | cons n0 ns =>
            rw [carve_rec_cons rand fuel g x y rest t n0 ns hn]
            have hmem : (n0 :: ns).getD (rand t % (n0 :: ns).length) n0
                ∈ g.get_neighbors x y := by
              rw [hn]
              exact getD_mem_of_lt _ _ _ (Nat.mod_lt _ (by simp))
            obtain ⟨hinv', hcard⟩ := carveInv_push g x y rest hinv _ hmem
            refine ih _ _ _ hinv' ?_
            have hlen : (((n0 :: ns).getD (rand t % (n0 :: ns).length) n0)
                :: (x, y) :: rest).length = rest.length + 2 := by
              simp
            rw [hlen]
            simp only [List.length_cons] at hm
            omega

/-- The invariant holds at loop entry: only `(1,1)` is visited and clear,
and it is the only stack entry. -/
theorem carveInv_init (W H : Int) (hW : 3 ≤ W) (hH : 3 ≤ H) :
    CarveInv
      { MazeGenerator.init W H with
        visited := updf (MazeGenerator.init W H).visited (1, 1) true
        maze := updf (MazeGenerator.init W H).maze (1, 1) false }
      [(1, 1)] := by
  set G : MazeGenerator :=
    { MazeGenerator.init W H with
      visited := updf (MazeGenerator.init W H).visited (1, 1) true
      maze := updf (MazeGenerator.init W H).maze (1, 1) false } with hG
  have hWW : G.width = W := rfl
  have hHH : G.height = H := rfl
  have hmz : ∀ q : Cell, G.maze q = if q = (1, 1) then false else true :=
    fun q => rfl
  have hvs : ∀ q : Cell, G.visited q = if q = (1, 1) then true else false :=
    fun q => rfl
  have hval11 : G.is_valid 1 1 = true := by
    rw [is_valid_iff, hWW, hHH]
    exact ⟨by omega, by omega, by omega, by omega⟩
  constructor
  case visOdd =>
    intro p hp
    rw [hvs] at hp
    by_cases hp1 : p = (1, 1)
    · rw [hp1]
      exact ⟨by omega, by omega, hval11⟩
    · rw [if_neg hp1] at hp
      exact absurd hp (by simp)
  case startVis =>
    rw [hvs, if_pos rfl]
  case nodeIff =>
    intro p h1 h2
    rw [hmz, hvs]
    by_cases hp1 : p = (1, 1)
    · rw [if_pos hp1, if_pos hp1]
      simp
    · rw [if_neg hp1, if_neg hp1]
      simp
  case stackVis =>
    intro p hp
    rw [List.mem_singleton] at hp
    rw [hp, hvs, if_pos rfl]
  case stackNodup =>
    exact List.nodup_singleton _
  case reach =>
    intro p hp
    rw [hmz] at hp
    by_cases hp1 : p = (1, 1)
    · rw [hp1]
      exact Relation.ReflTransGen.refl
    · rw [if_neg hp1] at hp
      exact absurd hp (by simp)
  case closure =>
    intro v hv hnotin d hd hval
    exfalso
    rw [hvs] at hv
    by_cases hv1 : v = (1, 1)
    · exact hnotin (hv1 ▸ List.mem_singleton_self _)
    · rw [if_neg hv1] at hv
      exact absurd hv (by simp)
  case midVis =>
    intro p hp
    rw [hmz] at hp
    by_cases hp1 : p = (1, 1)
    · subst hp1
      constructor
      · intro _ h2
        exfalso
        omega
      · intro h1 _
        exfalso
        omega
    · rw [if_neg hp1] at hp
      exact absurd hp (by simp)
  case count =>
    have hce : carvedEdgeCard G = 0 := by
      unfold carvedEdgeCard
      rw [Finset.card_eq_zero, Finset.filter_eq_empty_iff]
      intro q _
      rintro ⟨hqf, hqm⟩
      by_cases hq1 : q = (1, 1)
      · subst hq1
        unfold isMixed at hqm
        omega
      · rw [hmz, if_neg hq1] at hqf
        exact absurd hqf (by simp)
    have hvc : visitedCard G = 1 := by
      unfold visitedCard
      have hset : (validCells G.width G.height).filter
          (fun q => G.visited q = true) = {((1 : Int), (1 : Int))} := by
        ext q
        simp only [Finset.mem_filter, Finset.mem_singleton]
        constructor
        · rintro ⟨_, hv⟩
          by_cases hq1 : q = (1, 1)
          · exact hq1
          · rw [updf_other _ true hq1] at hv
            exact absurd hv (by simp [MazeGenerator.init])
        · rintro rfl
          refine ⟨?_, by rw [updf_same]⟩
          show ((1 : Int), (1 : Int)) ∈ validCells W H
          rw [mem_validCells_iff]
          exact ⟨by omega, by omega, by omega, by omega⟩
      rw [hset]
      rfl
    rw [hce, hvc]

/-- The generated maze is perfect: every passage cell is reachable from
the start cell by flood fill, and the number of carved edges is exactly
the number of coarse nodes minus one. -/
theorem generate_perfect (W H : Int) (rand : Nat → Nat)
    (hWodd : W % 2 = 1) (hHodd : H % 2 = 1) (hW : 3 ≤ W) (hH : 3 ≤ H) :
    (∀ x y : Int,
        ((MazeGenerator.init W H).generate rand 1 1).is_wall x y = false →
        ReachG ((MazeGenerator.init W H).generate rand 1 1) (1, 1) (x, y)) ∧
    carvedEdgeCard ((MazeGenerator.init W H).generate rand 1 1) + 1
      = coarseCard W H := by
  set G0 : MazeGenerator :=
    { MazeGenerator.init W H with
      visited := updf (MazeGenerator.init W H).visited (1, 1) true
      maze := updf (MazeGenerator.init W H).maze (1, 1) false } with hG0
  set F : Nat := 2 * ((MazeGenerator.init W H).width.toNat *
      (MazeGenerator.init W H).height.toNat) + 1 with hF
  set g1 : MazeGenerator := MazeGenerator.carve rand F G0 [(1, 1)] 0 with hg1
  have hgen : (MazeGenerator.init W H).generate rand 1 1
      = { g1 with
          maze := updf (updf g1.maze (1, 1) false) (W - 2, H - 2) false } := rfl
  have hdimW : g1.width = W := by
    rw [hg1]
    exact (carve_dims rand F G0 [(1, 1)] 0).1
  have hdimH : g1.height = H := by
    rw [hg1]
    exact (carve_dims rand F G0 [(1, 1)] 0).2
  have hcard0 : unvisitedCard G0 < W.toNat * H.toNat := by
    have hvcard : (validCells W H).card = W.toNat * H.toNat := by
      unfold validCells
      rw [Finset.card_product, Int.card_Icc, Int.card_Icc]
      have h1 : W - 1 + 1 - 0 = W := by ring
      have h2 : H - 1 + 1 - 0 = H := by ring
      rw [h1, h2]
    have hss : (validCells W H).filter (fun q => G0.visited q = false)
        ⊂ validCells W H := by
      rw [Finset.filter_ssubset]
      refine ⟨(1, 1), ?_, ?_⟩
      · rw [mem_validCells_iff]
        exact ⟨by omega, by omega, by omega, by omega⟩
      · intro hfalse
        rw [show G0.visited (1, 1) = true from rfl] at hfalse
        exact absurd hfalse (by simp)
    have hlt := Finset.card_lt_card hss
    calc unvisitedCard G0
        = ((validCells W H).filter (fun q => G0.visited q = false)).card := rfl
      _ < (validCells W H).card := hlt
      _ = W.toNat * H.toNat := hvcard
  have hFW : F = 2 * (W.toNat * H.toNat) + 1 := hF.trans rfl
  have hmeasure : 2 * unvisitedCard G0 +
      ([((1 : Int), (1 : Int))] : List Cell).length < F := by
    rw [hFW]
    simp only [List.length_singleton]
    omega
  have hpost : CarveInv g1 [] := by
    rw [hg1]
    exact carve_post rand F G0 [(1, 1)] 0 (carveInv_init W H hW hH) hmeasure
  have hallvis : ∀ p : Cell, p.1 % 2 = 1 → p.2 % 2 = 1 →
      0 ≤ p.1 → p.1 < W → 0 ≤ p.2 → p.2 < H → g1.visited p = true := by
    refine coarse_all_of_closed W H (fun p => g1.visited p = true)
      hpost.startVis ?_
    intro v hv d hd hb1 hb2 hb3 hb4
    refine hpost.closure v hv (List.not_mem_nil v) d hd ?_
    rw [is_valid_iff, hdimW, hdimH]
    exact ⟨hb1, hb2, hb3, hb4⟩
  have hmfun : updf (updf g1.maze (1, 1) false) (W - 2, H - 2) false
      = g1.maze := by
    funext q
    unfold updf
    by_cases h2 : q = (W - 2, H - 2)
    · rw [if_pos h2, h2]
      symm
      have hvisG : g1.visited (W - 2, H - 2) = true :=
        hallvis (W - 2, H - 2) (show (W - 2) % 2 = 1 by omega)
          (show (H - 2) % 2 = 1 by omega) (show (0 : Int) ≤ W - 2 by omega)
          (show W - 2 < W by omega) (show (0 : Int) ≤ H - 2 by omega)
          (show H - 2 < H by omega)
      exact (hpost.nodeIff (W - 2, H - 2) (show (W - 2) % 2 = 1 by omega)
        (show (H - 2) % 2 = 1 by omega)).mpr hvisG
    · rw [if_neg h2]
      by_cases h1 : q = (1, 1)
      · rw [if_pos h1, h1]
        symm
        exact (hpost.nodeIff (1, 1) (show (1 : Int) % 2 = 1 by omega)
          (show (1 : Int) % 2 = 1 by omega)).mpr hpost.startVis
      · rw [if_neg h1]
  have hfin : (MazeGenerator.init W H).generate rand 1 1 = g1 := by
    rw [hgen, hmfun]
  constructor
  · intro x y h
    rw [hfin] at h ⊢
    rw [is_wall_false_iff] at h
    exact hpost.reach (x, y) h.2
  · rw [hfin]
    have hvcc : visitedCard g1 = coarseCard W H := by
      unfold visitedCard coarseCard
      rw [hdimW, hdimH]
      refine congrArg Finset.card (Finset.filter_congr ?_)
      intro q hq
      rw [mem_validCells_iff] at hq
      constructor
      · intro hv
        have hodd := hpost.visOdd q hv
        exact ⟨hodd.1, hodd.2.1⟩
      · intro hodd
        exact hallvis q hodd.1 hodd.2 hq.1 hq.2.1 hq.2.2.1 hq.2.2.2
    rw [← hvcc]
    exact hpost.count

/-- C5: for every maze generated with odd width and height ≥ 5 and any
random stream, the result is a perfect maze: a flood fill from the start
cell `(1,1)` reaches every passage cell, and the coarse graph over
odd-coordinate nodes carries exactly `(number of coarse nodes) - 1`
carved edges (each carved edge being a cleared mixed-parity midpoint
cell), which with connectedness makes it a spanning tree, hence
acyclic. -/
theorem C5_theorem (W H : Int) (rand : Nat → Nat)
    (hWodd : W % 2 = 1) (hHodd : H % 2 = 1) (hW : 5 ≤ W) (hH : 5 ≤ H) :
    (∀ x y : Int,
        ((MazeGenerator.init W H).generate rand 1 1).is_wall x y = false →
        ReachG ((MazeGenerator.init W H).generate rand 1 1) (1, 1) (x, y)) ∧
    carvedEdgeCard ((MazeGenerator.init W H).generate rand 1 1) + 1
      = coarseCard W H :=
  generate_perfect W H rand hWodd hHodd (by omega) (by omega)

/-- Witness for C5 on a concrete 5×5 generation: the passage `(1,2)` is
flood-fill reachable from `(1,1)`, and the carved-edge count is one less
than the coarse-node count. -/
theorem C5_witness :
    ReachG ((MazeGenerator.init 5 5).generate (fun _ => 0) 1 1) (1, 1) (1, 2) ∧
    carvedEdgeCard ((MazeGenerator.init 5 5).generate (fun _ => 0) 1 1) + 1
      = coarseCard 5 5 :=
  ⟨(C5_theorem 5 5 (fun _ => 0) (by decide) (by decide) (by decide)
      (by decide)).1 1 2 (by decide),
   (C5_theorem 5 5 (fun _ => 0) (by decide) (by decide) (by decide)
      (by decide)).2⟩
